import Mathlib

namespace Zipfs

/-! Shallow embedding of src/zipfs.c, a read-only FUSE filesystem over a zip
archive.  Virtual paths and archive entry names are lists of characters and
entry contents are lists of bytes.  The archive library functions
(zip_entry_open, zip_entry_openbyindex, zip_entry_isdir, zip_entry_size,
zip_entry_noallocread) are modelled from the spec, section 6: the Entry
Catalog is an ordered list of distinct entry records, open-by-name is exact
name lookup, the directory flag and the decoded content are fields of the
record, and decode-into-buffer may fail, which the model exposes as a
Bool-valued oracle indexed by the catalog index. -/

/-- POSIX errno value for a missing file. -/
def ENOENT : Int := 2

/-- POSIX errno value for an allocation failure, the errno set by malloc and
realloc on failure. -/
def ENOMEM : Int := 12

/-- POSIX errno value for a permission failure. -/
def EACCES : Int := 13

/-- POSIX errno value for a directory-only operation applied to a file. -/
def ENOTDIR : Int := 20

/-- POSIX errno value for a file-only operation applied to a directory. -/
def EISDIR : Int := 21

/-- Modelled from the spec, section 3 and 6: one record of the Entry Catalog,
carrying the entry path string, the archive library's directory flag and the
decoded byte content.  The entry size of the library contract is the length
of the content. -/
structure ZipEntry where
  name : List Char
  isdir : Bool
  content : List Nat
  deriving DecidableEq

/-- Model of starts_with from the source (src/zipfs.c:71-73), that is
strncmp(pre, str, strlen(pre)) == 0. -/
def isPfx : List Char → List Char → Bool
  | [], _ => true
  | _ :: _, [] => false
  | a :: as, b :: bs => if a = b then isPfx as bs else false

/-- Modelled from the spec, section 6: zip_entry_open followed by
zip_entry_index, an exact-name lookup in the Entry Catalog returning the
matching entry together with its catalog index. -/
def findEntryAux : List ZipEntry → List Char → Nat → Option (Nat × ZipEntry)
  | [], _, _ => none
  | e :: es, q, i => if e.name = q then some (i, e) else findEntryAux es q (i + 1)

/-- Exact-name lookup over the whole catalog, starting at index 0. -/
def findEntryE (cat : List ZipEntry) (q : List Char) : Option (Nat × ZipEntry) :=
  findEntryAux cat q 0

/-- Classification of a virtual path, spec section 3 and 4.2. -/
inductive ResolvedNode where
  | root
  | file (i : Nat)
  | explicitDir (i : Nat)
  | implicitDir
  | notFound
  deriving DecidableEq

/-- The Path Resolver of spec 4.2 as implemented by zipfs_getattr
(src/zipfs.c:113-151): root, else exact catalog match (file, or explicit
directory when the library flags the entry as one), else implicit directory
when some entry name extends the path with a separator, else not-found. -/
def resolve (cat : List ZipEntry) (path : List Char) : ResolvedNode :=
  if path = ['/'] then .root
  else
    match findEntryE cat (path.drop 1) with
    | some (i, e) => if e.isdir then .explicitDir i else .file i
    | none =>
      if cat.any (fun e => isPfx (path.drop 1 ++ ['/']) e.name) then .implicitDir
      else .notFound

/-- zipfs_open (src/zipfs.c:153-190).  The result is the FUSE return code
paired with the handle stored into fi-fh on success; readOnly models the
access-mode test (fi-flags masked with O_ACCMODE equals O_RDONLY). -/
def zipfs_open (cat : List ZipEntry) (path : List Char) (readOnly : Bool) :
    Int × Option Nat :=
  if path = ['/'] then (-ENOENT, none)
  else
    match findEntryE cat (path.drop 1) with
    | none => (-ENOENT, none)
    | some (i, e) =>
      if e.isdir then (-EISDIR, none)
      else if readOnly then (0, some i)
      else (-EACCES, none)

/-- The single-slot decode cache, struct zip_buffer_t (src/zipfs.c:45-52).
data = none models a NULL pointer; when data = some bd the list bd has
length buf_size, the allocated capacity. -/
structure ZipBuffer where
  index : Nat
  data : Option (List Nat)
  buf_size : Nat
  entry_size : Nat
  deriving DecidableEq

/-- Unsigned 64-bit value of a signed offset, for the size_t-typed
comparisons in zipfs_read. -/
def toU64 (x : Int) : Nat := (x % (2 ^ 64 : Int)).toNat

/-- Transfer count computed by zipfs_read (src/zipfs.c:273-280): zero when
the offset is at or beyond the entry size under the unsigned comparison,
otherwise the requested size clipped to the bytes remaining before the end
of the entry. -/
def clipCount (esz : Nat) (offset : Int) (size : Nat) : Nat :=
  if esz ≤ toU64 offset then 0
  else if esz < (toU64 offset + size) % 2 ^ 64 then esz - toU64 offset
  else size

/-- Result of a read call: a FUSE return code with the bytes written to the
caller's buffer, or a process abort caused by a failed assert. -/
inductive ReadResult where
  | ret (n : Int) (out : List Nat)
  | abort
  deriving DecidableEq

/-- Byte-serving step of zipfs_read (src/zipfs.c:273-283): the early
end-of-file return, else a memcpy of clipCount bytes out of the cache
buffer starting at the offset. -/
def serveBytes (bd : List Nat) (esz : Nat) (offset : Int) (size : Nat) :
    ReadResult :=
  if esz ≤ toU64 offset then .ret 0 []
  else .ret (clipCount esz offset size)
      ((bd.drop (toU64 offset)).take (clipCount esz offset size))

/-- Modelled from the spec, section 6: zip_entry_noallocread decoding the
whole entry into the cache buffer overwrites its first entry-size bytes. -/
def writeBytes (bd : List Nat) (c : List Nat) : List Nat := c ++ bd.drop c.length

/-- realloc keeps the common part of the old block; fresh capacity beyond it
is unspecified, modelled as zero bytes. -/
def reallocBytes (bd : List Nat) (n : Nat) : List Nat :=
  bd.take n ++ List.replicate (n - bd.length) 0

/-- Entry lookup at the top of zipfs_read (src/zipfs.c:199-221): with no
file-handle the path is looked up by name (the root path cannot be read),
with a handle zip_entry_openbyindex validates the index against the
catalog. -/
def lookupRead (cat : List ZipEntry) (path : List Char) (fh : Option Nat) :
    Option (Nat × ZipEntry) :=
  match fh with
  | none => if path = ['/'] then none else findEntryE cat (path.drop 1)
  | some j => (cat[j]?).map (fun e => (j, e))

/-- Decode-and-serve tail of zipfs_read.  The source wraps the decode in
assert(zip_entry_noallocread(..) != -1) (src/zipfs.c:245-246, 269-270).
With assertions enabled (ndebug = false) a decode failure aborts the
process; in an NDEBUG build (ndebug = true) the assert argument is not
evaluated at all, so the decode is skipped and the buffer is served as it
is.  zb1 already carries the new owning index and entry size, exactly as
the source assigns them before the decode. -/
def finishRead (zb1 : ZipBuffer) (e : ZipEntry) (i : Nat) (offset : Int)
    (size : Nat) (ndebug : Bool) (decodeOk : Nat → Bool) :
    ReadResult × ZipBuffer :=
  match zb1.data with
  | none => (.abort, zb1)
  | some bd =>
    if ndebug then (serveBytes bd zb1.entry_size offset size, zb1)
    else if decodeOk i then
      (serveBytes (writeBytes bd e.content) zb1.entry_size offset size,
       ⟨zb1.index, some (writeBytes bd e.content), zb1.buf_size, zb1.entry_size⟩)
    else (.abort, zb1)

/-- zipfs_read (src/zipfs.c:192-290).  minBuf is the configured minimum
buffer size min_buf_size; mallocOk and reallocOk model the success of the
malloc and realloc calls; decodeOk models zip_entry_noallocread succeeding
on a given catalog index. -/
def zipfs_read (cat : List ZipEntry) (minBuf : Nat) (zb : ZipBuffer)
    (path : List Char) (size : Nat) (offset : Int) (fh : Option Nat)
    (mallocOk reallocOk ndebug : Bool) (decodeOk : Nat → Bool) :
    ReadResult × ZipBuffer :=
  match lookupRead cat path fh with
  | none => (.ret (-ENOENT) [], zb)
  | some (i, e) =>
    if e.isdir then (.ret (-EISDIR) [], zb)
    else
      match zb.data with
      | none =>
        if mallocOk then
          finishRead
            ⟨i, some (List.replicate (max minBuf e.content.length) 0),
             max minBuf e.content.length, e.content.length⟩
            e i offset size ndebug decodeOk
        else (.ret (-ENOMEM) [], zb)
      | some bd =>
        if zb.index ≠ i then
          if zb.buf_size < e.content.length
              ∨ (e.content.length < zb.buf_size ∧ minBuf < zb.buf_size) then
            if reallocOk then
              finishRead
                ⟨i, some (reallocBytes bd (max minBuf e.content.length)),
                 max minBuf e.content.length, e.content.length⟩
                e i offset size ndebug decodeOk
            else (.ret (-ENOMEM) [], zb)
          else
            finishRead ⟨i, some bd, zb.buf_size, e.content.length⟩
              e i offset size ndebug decodeOk
        else (serveBytes bd zb.entry_size offset size, zb)

/-- One filler call issued by zipfs_readdir: the child name, whether it was
filled with directory attributes, and the reported size. -/
structure Emission where
  ename : List Char
  edir : Bool
  esize : Nat
  deriving DecidableEq

/-- Result of a readdir call: the filler calls in order, or the
not-a-directory error. -/
inductive ReaddirResult where
  | ok (ems : List Emission)
  | enotdir
  deriving DecidableEq

/-- Character test backing the strchr(local_name, slash) search. -/
def notSlash (c : Char) : Bool := if c = '/' then false else true

/-- Whether a string contains a slash, that is strchr finds one. -/
def hasSlash : List Char → Bool
  | [] => false
  | c :: l => if c = '/' then true else hasSlash l

/-- local_name = name + strlen(dir_name) (src/zipfs.c:346). -/
def locOf (d : List Char) (e : ZipEntry) : List Char := e.name.drop d.length

/-- First segment of the local name: the part before the slash that strchr
finds, or the whole local name when there is none. -/
def segOf (d : List Char) (e : ZipEntry) : List Char :=
  (locOf d e).takeWhile notSlash

/-- The part of the local name after the first slash. -/
def restOf (d : List Char) (e : ZipEntry) : List Char :=
  ((locOf d e).dropWhile notSlash).tail

/-- In the deeper-entry branch zipfs_readdir writes a NUL over the first
slash of the local name, uses the truncated name, and then writes the slash
back (src/zipfs.c:364-373).  The entry left in the catalog is the truncated
name with the slash and the remaining tail written back at their place. -/
def restoreEntry (d : List Char) (e : ZipEntry) : ZipEntry :=
  ⟨(d ++ segOf d e) ++ '/' :: restOf d e, e.isdir, e.content⟩

/-- Scan loop of zipfs_readdir (src/zipfs.c:329-375), threading the catalog
slice being scanned (whose current entry is temporarily truncated and then
restored in the deeper-entry branch) and prev_name, and collecting the
filler calls in order.  The flag c is the dir_index == -1 test: on a
non-matching entry the loop continues when c holds and breaks otherwise. -/
def rdLoop (d : List Char) (c : Bool) :
    List ZipEntry → List Char → List Emission × List ZipEntry
  | [], _ => ([], [])
  | e :: es, prev =>
    if isPfx d e.name then
      if hasSlash (locOf d e) then
        if segOf d e = prev then
          ((rdLoop d c es prev).1, restoreEntry d e :: (rdLoop d c es prev).2)
        else
          (⟨segOf d e, true, 0⟩ :: (rdLoop d c es (segOf d e)).1,
           restoreEntry d e :: (rdLoop d c es (segOf d e)).2)
      else
        if locOf d e = prev then
          ((rdLoop d c es prev).1, e :: (rdLoop d c es prev).2)
        else
          (⟨locOf d e, e.isdir, if e.isdir then 0 else e.content.length⟩ ::
              (rdLoop d c es (locOf d e)).1,
           e :: (rdLoop d c es (locOf d e)).2)
    else if c then ((rdLoop d c es prev).1, e :: (rdLoop d c es prev).2)
    else ([], e :: es)

/-- zipfs_readdir (src/zipfs.c:292-380).  Returns the filler calls in order
and the catalog as it stands after the call returns. -/
def zipfs_readdir (cat : List ZipEntry) (path : List Char) :
    ReaddirResult × List ZipEntry :=
  if path = ['/'] then
    (.ok (rdLoop [] true cat []).1, (rdLoop [] true cat []).2)
  else
    match findEntryE cat (path.drop 1) with
    | some (i, e) =>
      if e.isdir then
        (.ok (rdLoop (path.drop 1 ++ ['/']) false (cat.drop (i + 1)) []).1,
         cat.take (i + 1) ++ (rdLoop (path.drop 1 ++ ['/']) false (cat.drop (i + 1)) []).2)
      else (.enotdir, cat)
    | none =>
      (.ok (rdLoop (path.drop 1 ++ ['/']) true cat []).1,
       (rdLoop (path.drop 1 ++ ['/']) true cat []).2)

/-- The mutable globals touched by the handlers: the Entry Catalog
zip_entry_names and the decode cache zip_buf. -/
structure FsState where
  catalog : List ZipEntry
  buf : ZipBuffer
  deriving DecidableEq

/-- zipfs_readdir acting on the whole filesystem state; the source never
touches zip_buf in this handler. -/
def zipfs_readdirSt (s : FsState) (path : List Char) :
    ReaddirResult × FsState :=
  ((zipfs_readdir s.catalog path).1, ⟨(zipfs_readdir s.catalog path).2, s.buf⟩)

/-- The dir_name string, the dir_index == -1 flag and the slice of the
catalog scanned, as zipfs_readdir chooses them for a path. -/
def scanPlan (cat : List ZipEntry) (path : List Char) :
    List Char × Bool × List ZipEntry :=
  if path = ['/'] then ([], true, cat)
  else
    match findEntryE cat (path.drop 1) with
    | some (i, e) =>
      if e.isdir then (path.drop 1 ++ ['/'], false, cat.drop (i + 1))
      else (path.drop 1 ++ ['/'], false, cat)
    | none => (path.drop 1 ++ ['/'], true, cat)

/-- The entries of the scanned slice that the loop matches against dir_name:
all matching entries when the loop continues past misses, the leading run
of matching entries when it breaks at the first miss. -/
def matchedSeq (d : List Char) (c : Bool) (es : List ZipEntry) :
    List ZipEntry :=
  if c then es.filter (fun e => isPfx d e.name)
  else es.takeWhile (fun e => isPfx d e.name)

/-- Child names derived by a directory listing: the first remaining segment
of every matched entry, in scan order. -/
def listedChildren (cat : List ZipEntry) (path : List Char) : List (List Char) :=
  (matchedSeq (scanPlan cat path).1 (scanPlan cat path).2.1
      (scanPlan cat path).2.2).map
    (fun e => segOf (scanPlan cat path).1 e)

/-- Adjacent deduplication with an explicit previous value, the behaviour of
the prev_name comparison in the scan loop. -/
def dedupAdj : List Char → List (List Char) → List (List Char)
  | _, [] => []
  | p, a :: l => if a = p then dedupAdj p l else a :: dedupAdj a l

/-- Equal elements of the list appear contiguously: between two occurrences
of a value only that value occurs. -/
def EqContig (l : List (List Char)) : Prop :=
  ∀ (a : List Char) (l₁ l₂ l₃ : List (List Char)),
    l = l₁ ++ a :: l₂ ++ a :: l₃ → ∀ x ∈ l₂, x = a

/-- Longest common leading run of two strings. -/
def lcp : List Char → List Char → List Char
  | a :: as, b :: bs => if a = b then a :: lcp as bs else []
  | _, _ => []

/-- The documented catalog-order assumption of spec section 3, read
literally: for every string p, the catalog entries whose names start with p
appear contiguously. -/
def PfxContig (names : List (List Char)) : Prop :=
  ∀ (p a b c : List Char) (i j k : Nat), i ≤ j → j ≤ k →
    names[i]? = some a → names[j]? = some b → names[k]? = some c →
    isPfx p a = true → isPfx p c = true → isPfx p b = true

/-- Decidable check implying PfxContig: for every ordered index triple, the
middle name extends the longest common leading run of the outer two. -/
def pfxContigB (names : List (List Char)) : Bool :=
  (List.range names.length).all fun i =>
    (List.range names.length).all fun j =>
      (List.range names.length).all fun k =>
        if i ≤ j ∧ j ≤ k then
          isPfx (lcp (names.getD i []) (names.getD k [])) (names.getD j [])
        else true

/-- Decode Cache invariant of spec section 3: the stored list really has the
allocated capacity, and the capacity is never smaller than the logical size
the cache claims to hold.  That at most one entry is resident is structural
in ZipBuffer, a single slot. -/
def bufInv (zb : ZipBuffer) : Prop :=
  match zb.data with
  | none => True
  | some bd => bd.length = zb.buf_size ∧ zb.entry_size ≤ zb.buf_size

/-- Path segments of an entry name, split at the slashes. -/
def splitSlash : List Char → List (List Char)
  | [] => [[]]
  | ch :: l =>
    if ch = '/' then [] :: splitSlash l
    else
      match splitSlash l with
      | [] => [[ch]]
      | s :: ss => (ch :: s) :: ss

/-- Catalog sanity: no entry name has a dot or dot-dot path segment, so the
names can never collide with the synthetic current- and parent-directory
entries. -/
def noDotNames (cat : List ZipEntry) : Prop :=
  ∀ e ∈ cat, ¬ ['.'] ∈ splitSlash e.name ∧ ¬ ['.', '.'] ∈ splitSlash e.name

/-- Decode oracle failing exactly on catalog index 1. -/
def decOk0 : Nat → Bool := fun i => if i = 0 then true else false

/-- Decode oracle that always succeeds. -/
def decAll : Nat → Bool := fun _ => true

/-- Catalog with a single top-level file, used for small listings. -/
def catA : List ZipEntry := [⟨"a.txt".data, false, [1]⟩]

/-- Catalog whose only entry lies under an implicit directory. -/
def catDir : List ZipEntry := [⟨"dir/b.txt".data, false, [1]⟩]

/-- Catalog with an entry the library flags as an explicit directory. -/
def catDirE : List ZipEntry := [⟨"dir".data, true, []⟩]

/-- The example catalog of spec section 8. -/
def catEx : List ZipEntry :=
  [⟨"a.txt".data, false, [1]⟩, ⟨"dir/b.txt".data, false, [2]⟩,
   ⟨"dir/c.txt".data, false, [3]⟩]

/-- A strictly path-sorted catalog in which the children of dir are not
contiguous by first segment: the sibling b!x sorts between the file dir/b
and the deeper entry dir/b/x because the bang orders below the slash. -/
def catDup : List ZipEntry :=
  [⟨"dir/b".data, false, [1]⟩, ⟨"dir/b!x".data, false, [2]⟩,
   ⟨"dir/b/x".data, false, [3]⟩]

/-- Catalog holding one 25-byte file, the read example of spec section 8. -/
def cat25 : List ZipEntry := [⟨"f".data, false, List.range 25⟩]

/-- Two-file catalog for the decode-failure scenario. -/
def catC2 : List ZipEntry :=
  [⟨"a".data, false, [10, 11, 12]⟩, ⟨"b".data, false, [20, 21]⟩]

/-! Basic facts about the string helpers. -/

theorem isPfx_drop : ∀ (d n : List Char), isPfx d n = true → d ++ n.drop d.length = n
  | [], n, _ => by simp
  | _ :: _, [], h => by simp [isPfx] at h
  | a :: as, b :: bs, h => by
    simp only [isPfx] at h
    split at h
    · next hab =>
      subst hab
      simpa using isPfx_drop as bs h
    · simp at h

theorem isPfx_trans : ∀ (x y z : List Char),
    isPfx x y = true → isPfx y z = true → isPfx x z = true
  | [], _, _, _, _ => rfl
  | _ :: _, [], _, h, _ => by simp [isPfx] at h
  | _ :: _, _ :: _, [], _, h => by simp [isPfx] at h
  | a :: as, b :: bs, c :: cs, h₁, h₂ => by
    simp only [isPfx] at h₁ h₂ ⊢
    split at h₁
    · next hab =>
      split at h₂
      · next hbc =>
        subst hab; subst hbc
        simpa using isPfx_trans as bs cs h₁ h₂
      · simp at h₂
    · simp at h₁

theorem isPfx_lcp : ∀ (p a b : List Char),
    isPfx p (lcp a b) = true ↔ (isPfx p a = true ∧ isPfx p b = true)
  | [], _, _ => by simp [isPfx]
  | x :: xs, [], b => by simp [isPfx, lcp]
  | x :: xs, _ :: _, [] => by simp [isPfx, lcp]
  | x :: xs, a :: as, b :: bs => by
    by_cases hab : a = b
    · subst hab
      simp only [lcp, if_pos rfl, isPfx]
      by_cases hxa : x = a
      · subst hxa
        simpa using isPfx_lcp xs as bs
      · simp [hxa]
    · simp only [lcp, if_neg hab, isPfx]
      constructor
      · intro h; simp at h
      · rintro ⟨h₁, h₂⟩
        split at h₁
        · next hxa =>
          split at h₂
          · next hxb => exact absurd (hxa ▸ hxb) hab
          · simp at h₂
        · simp at h₁

theorem pfxContigB_imp (names : List (List Char)) (hB : pfxContigB names = true) :
    PfxContig names := by
  intro p a b c i j k hij hjk hi hj hk hpa hpc
  have hilen : i < names.length := by
    have := List.getElem?_eq_some.mp hi
    exact this.1
  have hjlen : j < names.length := (List.getElem?_eq_some.mp hj).1
  have hklen : k < names.length := (List.getElem?_eq_some.mp hk).1
  have hda : names.getD i [] = a := by
    simp [List.getD_eq_getElem?_getD, hi]
  have hdb : names.getD j [] = b := by
    simp [List.getD_eq_getElem?_getD, hj]
  have hdc : names.getD k [] = c := by
    simp [List.getD_eq_getElem?_getD, hk]
  have h1 := (List.all_eq_true.mp hB) i (List.mem_range.mpr hilen)
  have h2 := (List.all_eq_true.mp h1) j (List.mem_range.mpr hjlen)
  have h3 := (List.all_eq_true.mp h2) k (List.mem_range.mpr hklen)
  rw [if_pos ⟨hij, hjk⟩, hda, hdb, hdc] at h3
  exact isPfx_trans p (lcp a c) b ((isPfx_lcp p a c).mpr ⟨hpa, hpc⟩) h3

theorem takeWhile_notSlash_self : ∀ l : List Char,
    hasSlash l = false → l.takeWhile notSlash = l := by
  intro l
  induction l with
  | nil => intro _; rfl
  | cons c l ih =>
    intro h
    simp only [hasSlash] at h
    split at h
    · simp at h
    · next hc =>
      simp [List.takeWhile_cons, notSlash, hc, ih h]

theorem dropWhile_slash_cons : ∀ l : List Char, hasSlash l = true →
    l.dropWhile notSlash = '/' :: (l.dropWhile notSlash).tail := by
  intro l
  induction l with
  | nil => intro h; simp [hasSlash] at h
  | cons c l ih =>
    intro h
    simp only [hasSlash] at h
    split at h
    · next hc =>
      subst hc
      simp [List.dropWhile_cons, notSlash]
    · next hc =>
      simp only [List.dropWhile_cons, notSlash, if_neg hc]
      simpa using ih h

/-! The scan loop restores every catalog name it truncates. -/

theorem restoreEntry_eq (d : List Char) (e : ZipEntry)
    (hp : isPfx d e.name = true) (hs : hasSlash (locOf d e) = true) :
    restoreEntry d e = e := by
  obtain ⟨nm, dir, ct⟩ := e
  simp only [restoreEntry, ZipEntry.mk.injEq, and_true]
  have hdrop : d ++ locOf d ⟨nm, dir, ct⟩ = nm := isPfx_drop d nm hp
  have hsplit : (locOf d ⟨nm, dir, ct⟩).takeWhile notSlash
      ++ (locOf d ⟨nm, dir, ct⟩).dropWhile notSlash = locOf d ⟨nm, dir, ct⟩ :=
    List.takeWhile_append_dropWhile notSlash (locOf d ⟨nm, dir, ct⟩)
  calc (d ++ segOf d ⟨nm, dir, ct⟩) ++ '/' :: restOf d ⟨nm, dir, ct⟩
      = d ++ (segOf d ⟨nm, dir, ct⟩ ++ '/' :: restOf d ⟨nm, dir, ct⟩) := by
        simp
    _ = d ++ ((locOf d ⟨nm, dir, ct⟩).takeWhile notSlash
          ++ (locOf d ⟨nm, dir, ct⟩).dropWhile notSlash) := by
        rw [segOf, restOf, ← dropWhile_slash_cons _ hs]
    _ = nm := by rw [hsplit, hdrop]

theorem rdLoop_snd (d : List Char) (c : Bool) :
    ∀ (es : List ZipEntry) (p : List Char), (rdLoop d c es p).2 = es := by
  intro es
  induction es with
  | nil => intro p; rfl
  | cons e es ih =>
    intro p
    simp only [rdLoop]
    split
    · next hp =>
      split
      · next hs =>
        have hre := restoreEntry_eq d e hp hs
        split <;> simp [ih, hre]
      · split <;> simp [ih]
    · split
      · simp [ih]
      · rfl

theorem matchedSeq_cons_pos (d : List Char) (c : Bool) (e : ZipEntry)
    (es : List ZipEntry) (h : isPfx d e.name = true) :
    matchedSeq d c (e :: es) = e :: matchedSeq d c es := by
  cases c <;> simp [matchedSeq, h]

theorem rdLoop_ename (d : List Char) (c : Bool) :
    ∀ (es : List ZipEntry) (p : List Char),
      ((rdLoop d c es p).1).map Emission.ename
        = dedupAdj p ((matchedSeq d c es).map (fun e => segOf d e)) := by
  intro es
  induction es with
  | nil => intro p; cases c <;> simp [rdLoop, matchedSeq, dedupAdj]
  | cons e es ih =>
    intro p
    by_cases hp : isPfx d e.name = true
    · rw [matchedSeq_cons_pos d c e es hp]
      simp only [rdLoop, if_pos hp, List.map_cons, dedupAdj]
      split
      · next hs =>
        split
        · next heq => simp [heq, ih]
        · next heq => simp [heq, ih]
      · next hs =>
        have hseg : segOf d e = locOf d e :=
          takeWhile_notSlash_self (locOf d e) (by simpa using hs)
        rw [hseg]
        split
        · next heq => simp [heq, ih]
        · next heq => simp [heq, ih]
    · simp only [rdLoop, if_neg hp]
      cases c with
      | true =>
        have : matchedSeq d true (e :: es) = matchedSeq d true es := by
          simp [matchedSeq, hp]
        simp [this, ih]
      | false =>
        have : matchedSeq d false (e :: es) = [] := by
          simp only [matchedSeq, if_neg (by simp : ¬ False = true)]
          simp [List.takeWhile_cons, hp]
        simp [this, dedupAdj]

/-! Adjacent deduplication: membership and, under contiguity of equal
elements, freedom from duplicates. -/

theorem mem_dedupAdj : ∀ (p : List Char) (l : List (List Char)) (x : List Char),
    x ∈ dedupAdj p l → x ∈ l
  | _, [], _, h => by simp [dedupAdj] at h
  | p, a :: l, x, h => by
    simp only [dedupAdj] at h
    split at h
    · exact List.mem_cons_of_mem a (mem_dedupAdj p l x h)
    · rcases List.mem_cons.mp h with h | h
      · exact h ▸ List.mem_cons_self a l
      · exact List.mem_cons_of_mem a (mem_dedupAdj a l x h)

theorem mem_dedupAdj_of : ∀ (p : List Char) (l : List (List Char)) (x : List Char),
    x ∈ l → x ≠ p → x ∈ dedupAdj p l
  | _, [], _, h, _ => by simp at h
  | p, a :: l, x, h, hne => by
    simp only [dedupAdj]
    split
    · next hap =>
      subst hap
      rcases List.mem_cons.mp h with h | h
      · exact absurd h hne
      · exact mem_dedupAdj_of a l x h hne
    · next hap =>
      rcases List.mem_cons.mp h with h | h
      · exact h ▸ List.mem_cons_self a _
      · by_cases hxa : x = a
        · exact hxa ▸ List.mem_cons_self a _
        · exact List.mem_cons_of_mem a (mem_dedupAdj_of a l x h hxa)

theorem eqcontig_tail (a : List Char) (l : List (List Char))
    (h : EqContig (a :: l)) : EqContig l := by
  intro x l₁ l₂ l₃ hl y hy
  exact h x (a :: l₁) l₂ l₃ (by simp [hl]) y hy

theorem eqcontig_dup (p : List Char) (l : List (List Char))
    (h : EqContig (p :: p :: l)) : EqContig (p :: l) := by
  intro x l₁ l₂ l₃ hl y hy
  cases l₁ with
  | nil =>
    simp only [List.nil_append, List.cons_append] at hl
    injection hl with h1 h2
    subst h1
    exact h p [p] l₂ l₃ (by simp [h2]) y hy
  | cons c l₁' =>
    simp only [List.cons_append] at hl
    injection hl with h1 h2
    subst h1
    exact h x (p :: p :: l₁') l₂ l₃ (by simp [h2]) y hy

theorem eqcontig_not_mem (p a : List Char) (l : List (List Char))
    (h : EqContig (p :: a :: l)) (hne : a ≠ p) : p ∉ l := by
  intro hp
  obtain ⟨u, v, huv⟩ := List.append_of_mem hp
  exact hne (h p [] (a :: u) v (by simp [huv]) a (by simp))

theorem nodup_dedupAdj : ∀ (l : List (List Char)) (p : List Char),
    EqContig (p :: l) →
    (dedupAdj p l).Nodup ∧ ∀ x ∈ dedupAdj p l, x ≠ p := by
  intro l
  induction l with
  | nil => intro p _; simp [dedupAdj]
  | cons a l ih =>
    intro p h
    by_cases hap : a = p
    · subst hap
      simp only [dedupAdj, if_pos rfl]
      exact ih a (eqcontig_dup a l h)
    · simp only [dedupAdj, if_neg hap]
      obtain ⟨hnd, hne⟩ := ih a (eqcontig_tail p (a :: l) h)
      have hpnot : p ∉ l := eqcontig_not_mem p a l h hap
      refine ⟨List.nodup_cons.mpr ⟨fun hmem => hne a hmem rfl, hnd⟩, ?_⟩
      intro x hx
      rcases List.mem_cons.mp hx with h1 | h1
      · exact h1 ▸ hap
      · intro hxp
        exact hpnot (hxp ▸ mem_dedupAdj a l x h1)

theorem eqcontig_of_nodup (l : List (List Char)) (h : l.Nodup) : EqContig l := by
  intro x l₁ l₂ l₃ hl y hy
  exfalso
  rw [hl] at h
  have hd := List.disjoint_of_nodup_append h
  exact hd (List.mem_append_right l₁ (List.mem_cons_self x l₂))
    (List.mem_cons_self x l₃)

/-! Path segments of entry names. -/

theorem splitSlash_head : ∀ l : List Char,
    ∃ ss, splitSlash l = l.takeWhile notSlash :: ss := by
  intro l
  induction l with
  | nil => exact ⟨[], rfl⟩
  | cons c l ih =>
    by_cases hc : c = '/'
    · subst hc
      refine ⟨splitSlash l, ?_⟩
      simp [splitSlash, List.takeWhile_cons, notSlash]
    · obtain ⟨ss, hss⟩ := ih
      refine ⟨ss, ?_⟩
      simp [splitSlash, hc, hss, List.takeWhile_cons, notSlash]

theorem splitSlash_append : ∀ a b : List Char,
    splitSlash (a ++ '/' :: b) = splitSlash a ++ splitSlash b := by
  intro a b
  induction a with
  | nil => simp [splitSlash]
  | cons c a ih =>
    by_cases hc : c = '/'
    · subst hc
      simp [splitSlash, ih]
    · obtain ⟨ss, hss⟩ := splitSlash_head a
      simp only [List.cons_append, splitSlash, if_neg hc, List.append_eq]
      rw [ih, hss]
      simp

theorem takeWhile_mem_splitSlash (l : List Char) :
    l.takeWhile notSlash ∈ splitSlash l := by
  obtain ⟨ss, hss⟩ := splitSlash_head l
  simp [hss]

theorem seg_mem_splitSlash (d : List Char) (e : ZipEntry)
    (hd : isPfx d e.name = true) (hshape : d = [] ∨ ∃ q, d = q ++ ['/']) :
    segOf d e ∈ splitSlash e.name := by
  have hname : d ++ locOf d e = e.name := isPfx_drop d e.name hd
  rcases hshape with rfl | ⟨q, rfl⟩
  · simpa [segOf, locOf] using takeWhile_mem_splitSlash e.name
  · have : e.name = q ++ '/' :: locOf (q ++ ['/']) e := by
      rw [← hname]; simp
    rw [this, splitSlash_append]
    exact List.mem_append_right _ (takeWhile_mem_splitSlash _)

theorem mem_matchedSeq (d : List Char) (c : Bool) (es : List ZipEntry)
    (x : ZipEntry) (h : x ∈ matchedSeq d c es) :
    x ∈ es ∧ isPfx d x.name = true := by
  cases c with
  | true =>
    simp only [matchedSeq, if_pos rfl] at h
    exact ⟨List.mem_of_mem_filter h, by simpa using List.of_mem_filter h⟩
  | false =>
    simp only [matchedSeq] at h
    rw [if_neg (by simp)] at h
    exact ⟨(List.takeWhile_sublist _).mem h, by simpa using List.mem_takeWhile_imp h⟩


/-! Inversion of the resolver and evaluation of the handlers on each
resolver branch. -/

theorem resolve_root_inv (cat : List ZipEntry) (path : List Char)
    (h : resolve cat path = .root) : path = ['/'] := by
  unfold resolve at h
  split at h
  · assumption
  · split at h
    · split at h <;> simp at h
    · split at h <;> simp at h

theorem resolve_file_inv (cat : List ZipEntry) (path : List Char) (i : Nat)
    (h : resolve cat path = .file i) :
    path ≠ ['/'] ∧ ∃ e, findEntryE cat (path.drop 1) = some (i, e)
      ∧ e.isdir = false := by
  unfold resolve at h
  split at h
  · simp at h
  · next hroot =>
    refine ⟨hroot, ?_⟩
    split at h
    · next j e heq =>
      split at h
      · simp at h
      · next hdir =>
        injection h with hji
        subst hji
        exact ⟨e, heq, by simpa using hdir⟩
    · split at h <;> simp at h

theorem resolve_explicitDir_inv (cat : List ZipEntry) (path : List Char) (i : Nat)
    (h : resolve cat path = .explicitDir i) :
    path ≠ ['/'] ∧ ∃ e, findEntryE cat (path.drop 1) = some (i, e)
      ∧ e.isdir = true := by
  unfold resolve at h
  split at h
  · simp at h
  · next hroot =>
    refine ⟨hroot, ?_⟩
    split at h
    · next j e heq =>
      split at h
      · next hdir =>
        injection h with hji
        subst hji
        exact ⟨e, heq, hdir⟩
      · simp at h
    · split at h <;> simp at h

theorem resolve_implicitDir_inv (cat : List ZipEntry) (path : List Char)
    (h : resolve cat path = .implicitDir) :
    path ≠ ['/'] ∧ findEntryE cat (path.drop 1) = none := by
  unfold resolve at h
  split at h
  · simp at h
  · next hroot =>
    refine ⟨hroot, ?_⟩
    split at h
    · split at h <;> simp at h
    · assumption

theorem resolve_notFound_inv (cat : List ZipEntry) (path : List Char)
    (h : resolve cat path = .notFound) :
    path ≠ ['/'] ∧ findEntryE cat (path.drop 1) = none
      ∧ ∀ e ∈ cat, isPfx (path.drop 1 ++ ['/']) e.name = false := by
  unfold resolve at h
  split at h
  · simp at h
  · next hroot =>
    refine ⟨hroot, ?_⟩
    split at h
    · split at h <;> simp at h
    · next heq =>
      refine ⟨heq, ?_⟩
      split at h
      · simp at h
      · next hany =>
        intro e he
        by_contra hc
        exact hany (List.any_eq_true.mpr ⟨e, he, by simpa using hc⟩)

theorem zipfs_open_eval_none (cat : List ZipEntry) (path : List Char) (ro : Bool)
    (hroot : path ≠ ['/']) (hfe : findEntryE cat (path.drop 1) = none) :
    zipfs_open cat path ro = (-ENOENT, none) := by
  unfold zipfs_open
  rw [if_neg hroot, hfe]

theorem zipfs_open_eval_dir (cat : List ZipEntry) (path : List Char) (ro : Bool)
    (i : Nat) (e : ZipEntry) (hroot : path ≠ ['/'])
    (hfe : findEntryE cat (path.drop 1) = some (i, e)) (hdir : e.isdir = true) :
    zipfs_open cat path ro = (-EISDIR, none) := by
  unfold zipfs_open
  rw [if_neg hroot]
  simp only [hfe, hdir, if_true]

theorem readdir_eval_root (cat : List ZipEntry) :
    zipfs_readdir cat ['/']
      = (.ok (rdLoop [] true cat []).1, (rdLoop [] true cat []).2) := by
  unfold zipfs_readdir
  rw [if_pos rfl]

theorem readdir_eval_none (cat : List ZipEntry) (path : List Char)
    (hroot : path ≠ ['/']) (hfe : findEntryE cat (path.drop 1) = none) :
    zipfs_readdir cat path
      = (.ok (rdLoop (path.drop 1 ++ ['/']) true cat []).1,
         (rdLoop (path.drop 1 ++ ['/']) true cat []).2) := by
  unfold zipfs_readdir
  rw [if_neg hroot, hfe]

theorem readdir_eval_file (cat : List ZipEntry) (path : List Char)
    (i : Nat) (e : ZipEntry) (hroot : path ≠ ['/'])
    (hfe : findEntryE cat (path.drop 1) = some (i, e)) (hdir : e.isdir = false) :
    zipfs_readdir cat path = (.enotdir, cat) := by
  unfold zipfs_readdir
  rw [if_neg hroot]
  simp only [hfe, hdir]
  simp

theorem readdir_eval_dir (cat : List ZipEntry) (path : List Char)
    (i : Nat) (e : ZipEntry) (hroot : path ≠ ['/'])
    (hfe : findEntryE cat (path.drop 1) = some (i, e)) (hdir : e.isdir = true) :
    zipfs_readdir cat path
      = (.ok (rdLoop (path.drop 1 ++ ['/']) false (cat.drop (i + 1)) []).1,
         cat.take (i + 1)
           ++ (rdLoop (path.drop 1 ++ ['/']) false (cat.drop (i + 1)) []).2) := by
  unfold zipfs_readdir
  rw [if_neg hroot]
  simp only [hfe, hdir, if_true]

theorem matchedSeq_true_eq (d : List Char) (es : List ZipEntry) :
    matchedSeq d true es = es.filter (fun e => isPfx d e.name) := by
  simp [matchedSeq]

theorem listedChildren_root (cat : List ZipEntry) :
    listedChildren cat ['/']
      = (matchedSeq [] true cat).map (fun e => segOf [] e) := by
  simp [listedChildren, scanPlan]

theorem listedChildren_none (cat : List ZipEntry) (path : List Char)
    (hroot : path ≠ ['/']) (hfe : findEntryE cat (path.drop 1) = none) :
    listedChildren cat path
      = (matchedSeq (path.drop 1 ++ ['/']) true cat).map
          (fun e => segOf (path.drop 1 ++ ['/']) e) := by
  unfold listedChildren scanPlan
  rw [if_neg hroot, hfe]

theorem listedChildren_dir (cat : List ZipEntry) (path : List Char)
    (i : Nat) (e : ZipEntry) (hroot : path ≠ ['/'])
    (hfe : findEntryE cat (path.drop 1) = some (i, e)) (hdir : e.isdir = true) :
    listedChildren cat path
      = (matchedSeq (path.drop 1 ++ ['/']) false (cat.drop (i + 1))).map
          (fun x => segOf (path.drop 1 ++ ['/']) x) := by
  unfold listedChildren scanPlan
  rw [if_neg hroot]
  simp only [hfe, hdir, if_true]

theorem scanPlan_shape (cat : List ZipEntry) (path : List Char) :
    ((scanPlan cat path).1 = [] ∨ ∃ q, (scanPlan cat path).1 = q ++ ['/'])
    ∧ ∀ e ∈ (scanPlan cat path).2.2, e ∈ cat := by
  by_cases hroot : path = ['/']
  · subst hroot
    simp [scanPlan]
  · cases hfe : findEntryE cat (path.drop 1) with
    | none =>
      have hs : scanPlan cat path = (path.drop 1 ++ ['/'], true, cat) := by
        unfold scanPlan
        rw [if_neg hroot, hfe]
      rw [hs]
      exact ⟨Or.inr ⟨path.drop 1, rfl⟩, fun e he => he⟩
    | some ie =>
      obtain ⟨i, e⟩ := ie
      cases hdir : e.isdir with
      | true =>
        have hs : scanPlan cat path = (path.drop 1 ++ ['/'], false, cat.drop (i + 1)) := by
          unfold scanPlan
          rw [if_neg hroot]
          simp only [hfe, hdir, if_true]
        rw [hs]
        exact ⟨Or.inr ⟨path.drop 1, rfl⟩, fun x hx => List.drop_subset _ _ hx⟩
      | false =>
        have hs : scanPlan cat path = (path.drop 1 ++ ['/'], false, cat) := by
          unfold scanPlan
          rw [if_neg hroot]
          simp only [hfe, hdir]
          simp
        rw [hs]
        exact ⟨Or.inr ⟨path.drop 1, rfl⟩, fun x hx => hx⟩

theorem readdir_ename_eq (cat : List ZipEntry) (path : List Char)
    (ems : List Emission) (cat' : List ZipEntry)
    (h : zipfs_readdir cat path = (.ok ems, cat')) :
    ems.map Emission.ename = dedupAdj [] (listedChildren cat path) := by
  by_cases hroot : path = ['/']
  · subst hroot
    rw [readdir_eval_root] at h
    injection h with h1 h2
    injection h1 with h1
    rw [listedChildren_root, ← h1]
    exact rdLoop_ename [] true cat []
  · cases hfe : findEntryE cat (path.drop 1) with
    | none =>
      rw [readdir_eval_none cat path hroot hfe] at h
      injection h with h1 h2
      injection h1 with h1
      rw [listedChildren_none cat path hroot hfe, ← h1]
      exact rdLoop_ename _ true cat []
    | some ie =>
      obtain ⟨i, e⟩ := ie
      cases hdir : e.isdir with
      | true =>
        rw [readdir_eval_dir cat path i e hroot hfe hdir] at h
        injection h with h1 h2
        injection h1 with h1
        rw [listedChildren_dir cat path i e hroot hfe hdir, ← h1]
        exact rdLoop_ename _ false _ []
      | false =>
        rw [readdir_eval_file cat path i e hroot hfe hdir] at h
        injection h with h1 h2
        exact absurd h1 (by simp)

/-- Claim C9: every zipfs_readdir call leaves the filesystem state exactly
as it found it: although the handler temporarily writes a NUL over the
separator of a catalog name to isolate the first segment, it restores the
separator before proceeding, so every catalog name string is byte-for-byte
what it was before the call, and the decode cache is untouched. -/
theorem c9_theorem (s : FsState) (path : List Char) :
    (zipfs_readdirSt s path).2 = s := by
  obtain ⟨cat, buf⟩ := s
  have hcat : (zipfs_readdir cat path).2 = cat := by
    by_cases hroot : path = ['/']
    · subst hroot
      rw [readdir_eval_root]
      exact rdLoop_snd [] true cat []
    · cases hfe : findEntryE cat (path.drop 1) with
      | none =>
        rw [readdir_eval_none cat path hroot hfe]
        exact rdLoop_snd _ true cat []
      | some ie =>
        obtain ⟨i, e⟩ := ie
        cases hdir : e.isdir with
        | false => rw [readdir_eval_file cat path i e hroot hfe hdir]
        | true =>
          rw [readdir_eval_dir cat path i e hroot hfe hdir]
          show cat.take (i + 1) ++ (rdLoop _ false (cat.drop (i + 1)) []).2 = cat
          rw [rdLoop_snd]
          exact List.take_append_drop (i + 1) cat
  simp [zipfs_readdirSt, hcat]

/-- Claim C3 (amended): a path resolving to a File makes the listing return
the not-a-directory error; a path resolving to NotFound makes the listing
return success with an empty list of derived children, not a not-found
error. -/
theorem c3_theorem (cat : List ZipEntry) (path : List Char) :
    (∀ i, resolve cat path = .file i → (zipfs_readdir cat path).1 = .enotdir)
    ∧ (resolve cat path = .notFound → (zipfs_readdir cat path).1 = .ok []) := by
  constructor
  · intro i hres
    obtain ⟨hroot, e, hfe, hdir⟩ := resolve_file_inv cat path i hres
    rw [readdir_eval_file cat path i e hroot hfe hdir]
  · intro hres
    obtain ⟨hroot, hfe, hany⟩ := resolve_notFound_inv cat path hres
    have hm : matchedSeq (path.drop 1 ++ ['/']) true cat = [] := by
      rw [matchedSeq_true_eq]
      exact List.filter_eq_nil_iff.mpr (by simpa using hany)
    have hmap : ((rdLoop (path.drop 1 ++ ['/']) true cat []).1).map Emission.ename
        = [] := by
      rw [rdLoop_ename, hm]
      rfl
    have hnil : (rdLoop (path.drop 1 ++ ['/']) true cat []).1 = [] :=
      List.map_eq_nil_iff.mp hmap
    rw [readdir_eval_none cat path hroot hfe]
    show ReaddirResult.ok (rdLoop (path.drop 1 ++ ['/']) true cat []).1
      = ReaddirResult.ok []
    rw [hnil]

/-- Claim C3 counterexample: on a path with no catalog match at all, the
listing reports success with an empty result instead of the not-found error
the claim requires. -/
theorem c3_counterexample :
    resolve catA ('/' :: "nope".data) = .notFound
    ∧ (zipfs_readdir catA ('/' :: "nope".data)).1 = .ok [] := by decide

/-- Claim C3 witness: the File part of the amended claim at a concrete
input. -/
theorem c3_witness : (zipfs_readdir catA ('/' :: "a.txt".data)).1 = .enotdir :=
  (c3_theorem catA ('/' :: "a.txt".data)).1 0 (by decide)

/-- Claim C4 (amended): the listing emits only derived children and never a
synthetic dot or dot-dot entry, provided no catalog entry name carries a
dot or dot-dot segment. -/
theorem c4_theorem (cat : List ZipEntry) (path : List Char)
    (ems : List Emission) (cat' : List ZipEntry) (hwf : noDotNames cat)
    (h : zipfs_readdir cat path = (.ok ems, cat')) :
    ∀ em ∈ ems, em.ename ≠ ['.'] ∧ em.ename ≠ ['.', '.'] := by
  intro em hem
  have hname : em.ename ∈ dedupAdj [] (listedChildren cat path) := by
    rw [← readdir_ename_eq cat path ems cat' h]
    exact List.mem_map_of_mem Emission.ename hem
  have hch : em.ename ∈ listedChildren cat path := mem_dedupAdj _ _ _ hname
  rw [listedChildren] at hch
  obtain ⟨e, hmem, hseg⟩ := List.mem_map.mp hch
  obtain ⟨hes, hpfx⟩ := mem_matchedSeq _ _ _ _ hmem
  obtain ⟨hshape, hsub⟩ := scanPlan_shape cat path
  have hecat : e ∈ cat := hsub e hes
  have hsegmem : segOf (scanPlan cat path).1 e ∈ splitSlash e.name :=
    seg_mem_splitSlash _ e hpfx hshape
  rw [hseg] at hsegmem
  obtain ⟨hd1, hd2⟩ := hwf e hecat
  exact ⟨fun heq => hd1 (heq ▸ hsegmem), fun heq => hd2 (heq ▸ hsegmem)⟩

/-- Claim C4 counterexample: listing the root of a one-file catalog emits
exactly the derived child and no dot entry at all, so the synthetic dot and
dot-dot entries are not emitted before the children. -/
theorem c4_counterexample :
    (zipfs_readdir catA ['/']).1 = .ok [⟨"a.txt".data, false, 1⟩]
    ∧ ['.'] ∉ ([⟨"a.txt".data, false, 1⟩] : List Emission).map Emission.ename
    ∧ ['.', '.'] ∉ ([⟨"a.txt".data, false, 1⟩] : List Emission).map Emission.ename := by
  decide

/-- Claim C4 witness: the amended claim applied to the one-file catalog. -/
theorem c4_witness :
    Emission.ename ⟨"a.txt".data, false, 1⟩ ≠ ['.']
    ∧ Emission.ename ⟨"a.txt".data, false, 1⟩ ≠ ['.', '.'] :=
  c4_theorem catA ['/'] [⟨"a.txt".data, false, 1⟩] catA
    (by unfold noDotNames; decide) (by decide)
    ⟨"a.txt".data, false, 1⟩ (by decide)

/-- Claim C7 (amended): when no matched entry is the directory itself and
entries sharing the same first remaining segment appear contiguously among
the matched entries (a condition the literal shared-prefix contiguity of
the spec does not imply), the listing emits each derived child name exactly
once, and the emitted names are exactly the derived children. -/
theorem c7_theorem (cat : List ZipEntry) (path : List Char) (ems : List Emission)
    (cat' : List ZipEntry) (hnil : [] ∉ listedChildren cat path)
    (hctg : EqContig ([] :: listedChildren cat path))
    (h : zipfs_readdir cat path = (.ok ems, cat')) :
    (ems.map Emission.ename).Nodup
    ∧ ∀ n : List Char, n ∈ ems.map Emission.ename ↔ n ∈ listedChildren cat path := by
  rw [readdir_ename_eq cat path ems cat' h]
  obtain ⟨hnd, _⟩ := nodup_dedupAdj (listedChildren cat path) [] hctg
  refine ⟨hnd, fun n => ⟨fun hn => mem_dedupAdj _ _ _ hn, fun hn => ?_⟩⟩
  refine mem_dedupAdj_of _ _ _ hn fun hcontra => ?_
  exact hnil (hcontra ▸ hn)

/-- Claim C7 counterexample: a strictly path-sorted catalog that satisfies
the literal shared-prefix contiguity assumption, on which the listing of an
implicit directory emits the child b twice, because the sibling b!x sits
between the file dir/b and the deeper entry dir/b/x. -/
theorem c7_counterexample :
    PfxContig (catDup.map ZipEntry.name)
    ∧ resolve catDup ('/' :: "dir".data) = .implicitDir
    ∧ (zipfs_readdir catDup ('/' :: "dir".data)).1
        = .ok [⟨"b".data, false, 1⟩, ⟨"b!x".data, false, 1⟩, ⟨"b".data, true, 0⟩]
    ∧ ¬ (([⟨"b".data, false, 1⟩, ⟨"b!x".data, false, 1⟩,
          ⟨"b".data, true, 0⟩] : List Emission).map Emission.ename).Nodup :=
  ⟨pfxContigB_imp _ (by decide), by decide, by decide, by decide⟩

/-- Claim C7 witness: the spec example catalog, listing the implicit
directory dir, emits b.txt and c.txt exactly once each. -/
theorem c7_witness :
    (([⟨"b.txt".data, false, 1⟩, ⟨"c.txt".data, false, 1⟩] : List Emission).map
        Emission.ename).Nodup :=
  (c7_theorem catEx ('/' :: "dir".data)
    [⟨"b.txt".data, false, 1⟩, ⟨"c.txt".data, false, 1⟩] catEx
    (by decide) (eqcontig_of_nodup _ (by decide)) (by decide)).1

/-- Claim C1 (amended): open returns the is-a-directory error exactly for
paths resolving to an explicit directory entry; for Root, implicit
directories and paths with no catalog match it returns the not-found
error. -/
theorem c1_theorem (cat : List ZipEntry) (path : List Char) (ro : Bool) :
    (∀ i, resolve cat path = .explicitDir i
      → zipfs_open cat path ro = (-EISDIR, none))
    ∧ ((resolve cat path = .root ∨ resolve cat path = .implicitDir
        ∨ resolve cat path = .notFound)
       → zipfs_open cat path ro = (-ENOENT, none)) := by
  constructor
  · intro i hres
    obtain ⟨hroot, e, hfe, hdir⟩ := resolve_explicitDir_inv cat path i hres
    exact zipfs_open_eval_dir cat path ro i e hroot hfe hdir
  · intro hres
    rcases hres with h1 | h1 | h1
    · rw [resolve_root_inv cat path h1]
      simp [zipfs_open]
    · obtain ⟨hroot, hfe⟩ := resolve_implicitDir_inv cat path h1
      exact zipfs_open_eval_none cat path ro hroot hfe
    · obtain ⟨hroot, hfe, _⟩ := resolve_notFound_inv cat path h1
      exact zipfs_open_eval_none cat path ro hroot hfe

/-- Claim C1 counterexample: opening the root and opening an implicit
directory both return the not-found error, not the is-a-directory error
the claim requires for every directory classification. -/
theorem c1_counterexample :
    resolve catDir ('/' :: "dir".data) = .implicitDir
    ∧ zipfs_open catDir ('/' :: "dir".data) true = (-ENOENT, none)
    ∧ zipfs_open catDir ['/'] true = (-ENOENT, none)
    ∧ (-ENOENT : Int) ≠ -EISDIR := by decide

/-- Claim C1 witness: an entry the library flags as an explicit directory
is opened with the is-a-directory error. -/
theorem c1_witness : zipfs_open catDirE ('/' :: "dir".data) true = (-EISDIR, none) :=
  (c1_theorem catDirE ('/' :: "dir".data) true).1 0 (by decide)

/-! Arithmetic of the unsigned comparisons in the byte-serving step. -/

theorem toU64_of_nonneg (x : Int) (h0 : 0 ≤ x) (h1 : x < 2 ^ 63) :
    toU64 x = x.toNat := by
  have q64 : (2 : Int) ^ 64 = 18446744073709551616 := by norm_num
  have q63 : (2 : Int) ^ 63 = 9223372036854775808 := by norm_num
  unfold toU64
  rw [q64]
  rw [q63] at h1
  omega

theorem toU64_neg_ge (x : Int) (hlo : -(2 ^ 63) ≤ x) (hneg : x < 0) :
    2 ^ 63 ≤ toU64 x := by
  have q64 : (2 : Int) ^ 64 = 18446744073709551616 := by norm_num
  have q63 : (2 : Int) ^ 63 = 9223372036854775808 := by norm_num
  have p63 : (2 : Nat) ^ 63 = 9223372036854775808 := by norm_num
  unfold toU64
  rw [q64, p63]
  rw [q63] at hlo
  omega

theorem serveBytes_spec (bd : List Nat) (esz : Nat) (offset : Int) (size : Nat)
    (_hesz : esz ≤ 2 ^ 63) (hsz : size < 2 ^ 31)
    (hoff0 : 0 ≤ offset) (hoff1 : offset < 2 ^ 63) :
    serveBytes bd esz offset size
      = if esz ≤ offset.toNat then .ret 0 []
        else .ret ((min size (esz - offset.toNat) : Nat) : Int)
            ((bd.drop offset.toNat).take (min size (esz - offset.toNat))) := by
  have p63 : (2 : Nat) ^ 63 = 9223372036854775808 := by norm_num
  have p64 : (2 : Nat) ^ 64 = 18446744073709551616 := by norm_num
  have p31 : (2 : Nat) ^ 31 = 2147483648 := by norm_num
  have hu : toU64 offset = offset.toNat := toU64_of_nonneg offset hoff0 hoff1
  have hlt : offset.toNat < 2 ^ 63 := by omega
  unfold serveBytes clipCount
  rw [hu]
  by_cases he : esz ≤ offset.toNat
  · rw [if_pos he, if_pos he]
  · rw [if_neg he, if_neg he, if_neg he]
    have hmod : (offset.toNat + size) % 2 ^ 64 = offset.toNat + size :=
      Nat.mod_eq_of_lt (by omega)
    rw [hmod]
    by_cases hc : esz < offset.toNat + size
    · rw [if_pos hc]
      have hmin : min size (esz - offset.toNat) = esz - offset.toNat := by omega
      rw [hmin]
    · rw [if_neg hc]
      have hmin : min size (esz - offset.toNat) = size := by omega
      rw [hmin]

/-- Claim C10: whenever a read call reaches the byte-serving step, the
transfer count is between 0 and the requested size; when the copy is
performed (the unsigned offset lies inside the entry) the copied range ends
at or before the logical size, so the memcpy never reads past the valid
bytes; an offset at or beyond the entry, and in particular every negative
offset converted through the unsigned comparison, yields zero bytes and no
copy.  The transfer count is a Nat, so it is never negative. -/
theorem c10_theorem (bd : List Nat) (esz size : Nat) (offset : Int)
    (hesz : esz ≤ 2 ^ 63) (hsz : size < 2 ^ 31)
    (hlo : -(2 ^ 63) ≤ offset) (hhi : offset < 2 ^ 63) :
    clipCount esz offset size ≤ size
    ∧ (toU64 offset < esz
       → offset.toNat + clipCount esz offset size ≤ esz ∧ 0 ≤ offset)
    ∧ (esz ≤ toU64 offset → serveBytes bd esz offset size = .ret 0 [])
    ∧ (offset < 0 → serveBytes bd esz offset size = .ret 0 []) := by
  have p63 : (2 : Nat) ^ 63 = 9223372036854775808 := by norm_num
  have p64 : (2 : Nat) ^ 64 = 18446744073709551616 := by norm_num
  have p31 : (2 : Nat) ^ 31 = 2147483648 := by norm_num
  by_cases hneg : offset < 0
  · have hu : 2 ^ 63 ≤ toU64 offset := toU64_neg_ge offset hlo hneg
    have hge : esz ≤ toU64 offset := le_trans hesz hu
    refine ⟨?_, ?_, ?_, ?_⟩
    · unfold clipCount
      rw [if_pos hge]
      exact Nat.zero_le _
    · intro hltc
      omega
    · intro _
      unfold serveBytes
      rw [if_pos hge]
    · intro _
      unfold serveBytes
      rw [if_pos hge]
  · push_neg at hneg
    have hu : toU64 offset = offset.toNat := toU64_of_nonneg offset hneg hhi
    by_cases hge : esz ≤ toU64 offset
    · refine ⟨?_, ?_, ?_, ?_⟩
      · unfold clipCount
        rw [if_pos hge]
        exact Nat.zero_le _
      · intro hltc
        omega
      · intro _
        unfold serveBytes
        rw [if_pos hge]
      · intro hcontra
        exact absurd hcontra (not_lt.mpr hneg)
    · push_neg at hge
      have hmod : (toU64 offset + size) % 2 ^ 64 = toU64 offset + size :=
        Nat.mod_eq_of_lt (by omega)
      refine ⟨?_, ?_, ?_, ?_⟩
      · unfold clipCount
        rw [if_neg (not_le.mpr hge), hmod]
        split <;> omega
      · intro _
        refine ⟨?_, hneg⟩
        unfold clipCount
        rw [if_neg (not_le.mpr hge), hmod]
        split <;> omega
      · intro hcontra
        omega
      · intro hcontra
        exact absurd hcontra (not_lt.mpr hneg)

/-- Claim C10 witness: a negative offset yields a zero-byte transfer. -/
theorem c10_witness :
    clipCount 3 (-1) 10 ≤ 10 ∧ serveBytes [1, 2, 3] 3 (-1) 10 = .ret 0 [] := by
  have h := c10_theorem [1, 2, 3] 3 10 (-1) (by decide) (by decide)
    (by decide) (by decide)
  exact ⟨h.1, h.2.2.2 (by decide)⟩

/-! Evaluation of zipfs_read on the cache-hit path. -/

theorem zipfs_read_hit (cat : List ZipEntry) (minBuf : Nat) (zb : ZipBuffer)
    (path : List Char) (size : Nat) (offset : Int) (i : Nat) (e : ZipEntry)
    (bd : List Nat) (mOk rOk nde : Bool) (dOk : Nat → Bool)
    (hcat : cat[i]? = some e) (hdir : e.isdir = false)
    (hbd : zb.data = some bd) (hix : zb.index = i) :
    zipfs_read cat minBuf zb path size offset (some i) mOk rOk nde dOk
      = (serveBytes bd zb.entry_size offset size, zb) := by
  unfold zipfs_read lookupRead
  simp only [hcat, Option.map_some', hdir, Bool.false_eq_true, if_false, hbd]
  have hne : ¬ (zb.index ≠ i) := by simp [hix]
  rw [if_neg hne]

/-- Claim C5: reading a cached file entry transfers exactly the requested
range clipped to the logical size: an offset at or beyond the logical size
returns zero bytes and succeeds, otherwise exactly min(size, logical_size -
offset) bytes of the entry starting at the offset are copied out, and the
cache state is unchanged.  Machine bounds: the entry fits a size_t below
2^63, the request size fits the int return value, and the offset is a
non-negative off_t. -/
theorem c5_theorem (cat : List ZipEntry) (minBuf : Nat) (zb : ZipBuffer)
    (path : List Char) (size : Nat) (offset : Int) (i : Nat) (e : ZipEntry)
    (bd : List Nat) (mOk rOk nde : Bool) (dOk : Nat → Bool)
    (hcat : cat[i]? = some e) (hdir : e.isdir = false)
    (hbd : zb.data = some bd) (hix : zb.index = i)
    (hesz : zb.entry_size = e.content.length)
    (hcache : bd.take e.content.length = e.content)
    (hlen : e.content.length ≤ 2 ^ 63) (hsz : size < 2 ^ 31)
    (hoff0 : 0 ≤ offset) (hoff1 : offset < 2 ^ 63) :
    zipfs_read cat minBuf zb path size offset (some i) mOk rOk nde dOk
      = (if e.content.length ≤ offset.toNat then .ret 0 []
         else .ret ((min size (e.content.length - offset.toNat) : Nat) : Int)
             ((e.content.drop offset.toNat).take
                (min size (e.content.length - offset.toNat))), zb) := by
  rw [zipfs_read_hit cat minBuf zb path size offset i e bd mOk rOk nde dOk
    hcat hdir hbd hix]
  rw [hesz, serveBytes_spec bd e.content.length offset size hlen hsz hoff0 hoff1]
  by_cases he : e.content.length ≤ offset.toNat
  · rw [if_pos he, if_pos he]
  · rw [if_neg he, if_neg he]
    have hmin : offset.toNat + min size (e.content.length - offset.toNat)
        ≤ e.content.length := by omega
    have h1 : List.take (offset.toNat + min size (e.content.length - offset.toNat))
          e.content
        = List.take (offset.toNat + min size (e.content.length - offset.toNat)) bd := by
      calc List.take (offset.toNat + min size (e.content.length - offset.toNat))
            e.content
          = List.take (offset.toNat + min size (e.content.length - offset.toNat))
              (List.take e.content.length bd) := by rw [hcache]
        _ = List.take ((offset.toNat + min size (e.content.length - offset.toNat))
              ⊓ e.content.length) bd := List.take_take _ _ bd
        _ = List.take (offset.toNat + min size (e.content.length - offset.toNat)) bd := by
            rw [min_eq_left hmin]
    have hbytes : (bd.drop offset.toNat).take
          (min size (e.content.length - offset.toNat))
        = (e.content.drop offset.toNat).take
            (min size (e.content.length - offset.toNat)) := by
      rw [List.take_drop, List.take_drop, h1]
    rw [hbytes]

/-- Claim C5 witness: the 25-byte-file example of the spec, reading 10 bytes
at offset 10 from the cached entry. -/
theorem c5_witness :
    zipfs_read cat25 4 ⟨0, some (List.range 25 ++ [0, 0, 0]), 28, 25⟩
        ('/' :: "f".data) 10 10 (some 0) true true false decAll
      = (.ret 10 [10, 11, 12, 13, 14, 15, 16, 17, 18, 19],
         ⟨0, some (List.range 25 ++ [0, 0, 0]), 28, 25⟩) := by
  have h := c5_theorem cat25 4 ⟨0, some (List.range 25 ++ [0, 0, 0]), 28, 25⟩
    ('/' :: "f".data) 10 10 0 ⟨"f".data, false, List.range 25⟩
    (List.range 25 ++ [0, 0, 0]) true true false decAll
    (by decide) (by decide) rfl rfl (by decide) (by decide)
    (by decide) (by decide) (by decide) (by decide)
  rw [h]
  decide

/-! The realloc policy and the cache invariant. -/

theorem finishRead_bufsize (zb1 : ZipBuffer) (e : ZipEntry) (i : Nat)
    (offset : Int) (size : Nat) (nde : Bool) (dOk : Nat → Bool) :
    (finishRead zb1 e i offset size nde dOk).2.buf_size = zb1.buf_size := by
  unfold finishRead
  cases hbd : zb1.data with
  | none => rfl
  | some bd =>
    simp only [hbd]
    split
    · rfl
    · split <;> rfl

/-- Claim C6: on a read that targets a different entry than the cache holds,
the buffer is reallocated exactly when the capacity is below the entry size
or above both the entry size and the configured minimum; a reallocation
always sets the capacity to max(configured minimum, entry size), and that
new capacity always differs from the old one, so the final capacity
identifies whether reallocation happened. -/
theorem c6_theorem (cat : List ZipEntry) (minBuf : Nat) (zb : ZipBuffer)
    (path : List Char) (size : Nat) (offset : Int) (i : Nat) (e : ZipEntry)
    (bd : List Nat) (mOk nde : Bool) (dOk : Nat → Bool)
    (hcat : cat[i]? = some e) (hdir : e.isdir = false)
    (hbd : zb.data = some bd) (hix : zb.index ≠ i) :
    ((zipfs_read cat minBuf zb path size offset (some i) mOk true nde dOk).2).buf_size
      = (if zb.buf_size < e.content.length
            ∨ (e.content.length < zb.buf_size ∧ minBuf < zb.buf_size)
         then max minBuf e.content.length else zb.buf_size)
    ∧ ((zb.buf_size < e.content.length
        ∨ (e.content.length < zb.buf_size ∧ minBuf < zb.buf_size))
       → max minBuf e.content.length ≠ zb.buf_size) := by
  constructor
  · unfold zipfs_read lookupRead
    simp only [hcat, Option.map_some', hdir, Bool.false_eq_true, if_false, hbd]
    rw [if_pos hix]
    by_cases hcond : zb.buf_size < e.content.length
        ∨ (e.content.length < zb.buf_size ∧ minBuf < zb.buf_size)
    · rw [if_pos hcond, if_pos hcond]
      show (finishRead
          ⟨i, some (reallocBytes bd (max minBuf e.content.length)),
           max minBuf e.content.length, e.content.length⟩
          e i offset size nde dOk).2.buf_size = max minBuf e.content.length
      rw [finishRead_bufsize]
    · rw [if_neg hcond, if_neg hcond]
      rw [finishRead_bufsize]
  · intro hcond
    omega

/-- Claim C6 witness: a cache of capacity 4 holding entry 0, reading entry 1
of size 2 with minimum buffer size 4: the capacity is sufficient and not
above the minimum, so no reallocation happens. -/
theorem c6_witness :
    ((zipfs_read catC2 4 ⟨0, some [10, 11, 12, 0], 4, 3⟩ ('/' :: "b".data)
        2 0 (some 1) true true false decAll).2).buf_size = 4 := by
  have h := c6_theorem catC2 4 ⟨0, some [10, 11, 12, 0], 4, 3⟩ ('/' :: "b".data)
    2 0 1 ⟨"b".data, false, [20, 21]⟩ [10, 11, 12, 0] true false decAll
    (by decide) (by decide) rfl (by decide)
  rw [h.1]
  decide

theorem writeBytes_length (bd c : List Nat) (h : c.length ≤ bd.length) :
    (writeBytes bd c).length = bd.length := by
  simp only [writeBytes, List.length_append, List.length_drop]
  omega

theorem reallocBytes_length (bd : List Nat) (n : Nat) :
    (reallocBytes bd n).length = n := by
  simp only [reallocBytes, List.length_append, List.length_take,
    List.length_replicate]
  omega

theorem bufInv_finishRead (zb1 : ZipBuffer) (e : ZipEntry) (i : Nat)
    (offset : Int) (size : Nat) (nde : Bool) (dOk : Nat → Bool)
    (hinv : bufInv zb1) (hesz : zb1.entry_size = e.content.length) :
    bufInv (finishRead zb1 e i offset size nde dOk).2 := by
  unfold finishRead
  cases hbd : zb1.data with
  | none => exact hinv
  | some bd =>
    simp only [hbd]
    obtain ⟨hl, hle⟩ : bd.length = zb1.buf_size ∧ zb1.entry_size ≤ zb1.buf_size := by
      simpa [bufInv, hbd] using hinv
    split
    · exact hinv
    · split
      · show bufInv ⟨zb1.index, some (writeBytes bd e.content),
          zb1.buf_size, zb1.entry_size⟩
        simp only [bufInv]
        refine ⟨?_, hle⟩
        rw [writeBytes_length bd e.content (by omega)]
        exact hl
      · exact hinv

/-- Claim C8: every zipfs_read call, on every exit path (cache hit, fresh
decode, reallocation, allocation failure, decode failure under either
assert semantics), preserves the decode-cache invariant: the buffer list
has exactly the allocated capacity and the capacity is at least the logical
size the cache claims; that at most one entry is resident is structural in
the single-slot ZipBuffer. -/
theorem c8_theorem (cat : List ZipEntry) (minBuf : Nat) (zb : ZipBuffer)
    (path : List Char) (size : Nat) (offset : Int) (fh : Option Nat)
    (mOk rOk nde : Bool) (dOk : Nat → Bool) (hinv : bufInv zb) :
    bufInv (zipfs_read cat minBuf zb path size offset fh mOk rOk nde dOk).2 := by
  unfold zipfs_read
  cases hlk : lookupRead cat path fh with
  | none => exact hinv
  | some ie =>
    obtain ⟨i, e⟩ := ie
    simp only
    split
    · exact hinv
    · cases hbd : zb.data with
      | none =>
        simp only [hbd]
        split
        · apply bufInv_finishRead _ e i offset size nde dOk _ rfl
          simp only [bufInv]
          exact ⟨List.length_replicate _ _, le_max_right _ _⟩
        · exact hinv
      | some bd =>
        simp only [hbd]
        obtain ⟨hl, hle⟩ : bd.length = zb.buf_size ∧ zb.entry_size ≤ zb.buf_size := by
          simpa [bufInv, hbd] using hinv
        split
        · split
          · split
            · apply bufInv_finishRead _ e i offset size nde dOk _ rfl
              simp only [bufInv]
              exact ⟨reallocBytes_length bd _, le_max_right _ _⟩
            · exact hinv
          · next hcond =>
            apply bufInv_finishRead _ e i offset size nde dOk _ rfl
            simp only [bufInv]
            refine ⟨hl, ?_⟩
            omega
        · exact hinv

/-- Claim C8 witness: a read from the empty cache preserves the invariant. -/
theorem c8_witness :
    bufInv (zipfs_read catC2 4 ⟨0, none, 0, 0⟩ ('/' :: "a".data) 3 0 none
        true true false decAll).2 :=
  c8_theorem catC2 4 ⟨0, none, 0, 0⟩ ('/' :: "a".data) 3 0 none
    true true false decAll (by simp [bufInv])

/-- Claim C2 (code bug): when decoding entry 1 into the cache fails, the
source's assert either aborts the whole process (assertions enabled, first
conjunct: no error code, in particular no I/O error, is ever returned) or,
in an NDEBUG build, skips the decode entirely (second conjunct): the call
then reports success, serves the stale bytes 10, 11 of entry 0 still in
the buffer, and leaves the cache claiming index 1 with entry 1's size,
although entry 1's real content is 20, 21. -/
theorem c2_theorem :
    (zipfs_read catC2 4 ⟨0, some [10, 11, 12, 0], 4, 3⟩ ('/' :: "b".data) 2 0
        (some 1) true true false decOk0).1 = .abort
    ∧ zipfs_read catC2 4 ⟨0, some [10, 11, 12, 0], 4, 3⟩ ('/' :: "b".data) 2 0
        (some 1) true true true decOk0
      = (.ret 2 [10, 11], ⟨1, some [10, 11, 12, 0], 4, 2⟩)
    ∧ ([10, 11] : List Nat) ≠ [20, 21]
    ∧ catC2[1]? = some ⟨"b".data, false, [20, 21]⟩ := by decide

end Zipfs
